import Mathlib

/-!
Shallow embedding of the phonebook bot core (src/bot.py): Arabic text
normalization (`normalize_arabic`), department search (`search_indices`),
the SQLite-backed usage aggregators, user upsert (`upsert_user`),
phonebook loading (`load_phonebook`) and the two `period_bounds`
definitions.

Strings are modelled as lists of Unicode codepoints (`PyStr := List Nat`).
Python's `\w`, `\s` and `str.upper` are modelled faithfully on the
repertoire the claims exercise: ASCII, the Arabic block U+0600 to U+06FF
(which the source regex `[^\w\s؀-ۿ]` keeps wholesale), and the
pair U+1E96/U+0331 that witnesses the non-idempotence of the source's
normalization — Python's Unicode `\w` accepts the letter U+1E96 and
rejects the combining mark U+0331, and the full case mapping of
`str.upper` expands U+1E96 to `H` followed by U+0331.  Non-ASCII word or
cased characters other than these are outside the modelled repertoire
(the model strikes them to spaces); no theorem quantifies over them.
SQLite `TEXT` timestamps written by `iso(...)` are fixed-width and
compare lexicographically consistently with time order, so timestamps
are modelled as naturals with the usual order.
-/

/-- The three zero-width or formatting marks removed first by
`normalize_arabic` (U+200F, U+200E, U+FEFF). -/
def isMark (c : Nat) : Bool := decide (c = 0x200F ∨ c = 0x200E ∨ c = 0xFEFF)

/-- The character class of `ARABIC_DIAC = re.compile(r"[...]")`: the eight
Arabic diacritics U+064B to U+0652 plus the tatweel U+0640. -/
def isDiac (c : Nat) : Bool := decide ((0x64B ≤ c ∧ c ≤ 0x652) ∨ c = 0x640)

/-- Python regex whitespace `\s` (ASCII part): space, tab, LF, VT, FF, CR. -/
def isSpaceChar (c : Nat) : Bool := decide (c = 0x20 ∨ (0x9 ≤ c ∧ c ≤ 0xD))

/-- Python regex word character `\w`: ASCII digits, letters and
underscore, plus — of the non-ASCII letters Python's Unicode `\w`
accepts — the one this development exercises, U+1E96 (h with line
below).  Combining marks such as U+0331 are not `\w` in Python and not
here. -/
def isWordChar (c : Nat) : Bool :=
  decide ((0x30 ≤ c ∧ c ≤ 0x39) ∨ (0x41 ≤ c ∧ c ≤ 0x5A) ∨
          (0x61 ≤ c ∧ c ≤ 0x7A) ∨ c = 0x5F ∨ c = 0x1E96)

/-- The explicit range `؀-ۿ` of the source regex. -/
def inArabicBlock (c : Nat) : Bool := decide (0x600 ≤ c ∧ c ≤ 0x6FF)

/-- A character kept (not turned into a space) by the substitution
`re.sub(r"[^\w\s؀-ۿ]", " ", s)`. -/
def keepChar (c : Nat) : Bool := isWordChar c || isSpaceChar c || inArabicBlock c

/-- The letter folding chain of `normalize_arabic`: the three hamza-bearing
alef forms U+0622, U+0623, U+0625 to plain alef U+0627, alef maksura
U+0649 to ya U+064A, and ta marbuta U+0629 to ha U+0647. -/
def foldChar (c : Nat) : Nat :=
  if c = 0x622 ∨ c = 0x623 ∨ c = 0x625 then 0x627
  else if c = 0x649 then 0x64A
  else if c = 0x629 then 0x647
  else c

/-- The single-codepoint part of `str.upper`: `a`-`z` map to `A`-`Z`;
Arabic letters are caseless and map to themselves. -/
def upperChar (c : Nat) : Nat := if 0x61 ≤ c ∧ c ≤ 0x7A then c - 0x20 else c

/-- Helper strings type: a Python string as its list of codepoints. -/
abbrev PyStr := List Nat

/-- Python `str.upper()` of one character: the Unicode full case mapping,
which can expand — U+1E96 uppercases to `H` followed by the combining
macron below U+0331 (SpecialCasing.txt).  On the rest of the modelled
repertoire the mapping is the single codepoint `upperChar c`. -/
def pyUpper (c : Nat) : PyStr :=
  if c = 0x1E96 then [0x48, 0x331] else [upperChar c]

/-- Python `str.upper()` on a string: concatenate each character's full
uppercase mapping. -/
def pyUpperStr : PyStr → PyStr
  | [] => []
  | c :: rest => pyUpper c ++ pyUpperStr rest

/-- Characters of the program's working repertoire: ASCII or the Arabic
block (every department name and query the bot handles). -/
def asciiOrArabic (c : Nat) : Bool := decide (c < 0x80 ∨ (0x600 ≤ c ∧ c ≤ 0x6FF))

/-- Drop leading whitespace (one side of `str.strip`). -/
def stripLeft (s : PyStr) : PyStr := s.dropWhile (fun c => isSpaceChar c)

/-- Python `str.strip()`: drop trailing then leading whitespace. -/
def pyStrip (s : PyStr) : PyStr := stripLeft ((stripLeft s.reverse).reverse)

/-- `strip_diacritics` of src/bot.py: `ARABIC_DIAC.sub("", s)`. -/
def strip_diacritics (s : PyStr) : PyStr := s.filter (fun c => !isDiac c)

/-- Worker for `re.sub(r"\s+", " ", s)`: the flag records whether the
previous character was whitespace (so a run contributes one space). -/
def collapseWsAux : Bool → PyStr → PyStr
  | _, [] => []
  | prevSp, c :: rest =>
    if isSpaceChar c then
      if prevSp then collapseWsAux true rest else 0x20 :: collapseWsAux true rest
    else c :: collapseWsAux false rest

/-- `re.sub(r"\s+", " ", s)`: collapse each whitespace run to one space. -/
def collapseWs (s : PyStr) : PyStr := collapseWsAux false s

/-- `normalize_arabic` of src/bot.py, stage by stage: remove the zero-width
marks and strip, remove diacritics, fold letter variants, replace characters
outside `\w`, `\s` and the Arabic block by a space, collapse whitespace and
strip, upper-case. -/
def normalize_arabic (s : PyStr) : PyStr :=
  let s1 := pyStrip (s.filter (fun c => !isMark c))
  let s2 := strip_diacritics s1
  let s3 := s2.map foldChar
  let s4 := s3.map (fun c => if keepChar c then c else 0x20)
  let s5 := pyStrip (collapseWs s4)
  pyUpperStr s5

/-- `search_indices` of src/bot.py: normalize the query; if empty return no
matches, otherwise return every index whose normalized department name
contains the normalized query as a substring, in department order. -/
def search_indices (departments : List PyStr) (query : PyStr) : List Nat :=
  let qn := normalize_arabic query
  if qn = [] then []
  else (List.range departments.length).filter
    (fun i => decide (qn <:+: normalize_arabic (departments.getD i [])))

/-- A row of the `events` table (the columns the aggregation queries read;
`ts` is modelled as a natural, see the header). -/
structure Event where
  ts : Nat
  user_id : Int
  event_type : String
  dept : PyStr
  query : PyStr
deriving DecidableEq

/-- A row of the `users` table. -/
structure UserRow where
  user_id : Int
  first_seen : Nat
  last_seen : Nat
  username : PyStr
  full_name : PyStr
deriving DecidableEq

/-- The row filter of `get_top_depts` and `top10_departments_alltime`:
`event_type IN ('dept_select','search_hit') AND dept <> ''`. -/
def isTopDeptEvent (e : Event) : Bool :=
  (e.event_type == "dept_select" || e.event_type == "search_hit") && !(e.dept == [])

/-- The row filter of `count_searches`, `count_searches_all` and
`get_top_users`: `event_type IN ('search_text','dept_select','search_hit')`. -/
def isSearchEvent (e : Event) : Bool :=
  e.event_type == "search_text" || e.event_type == "dept_select" ||
  e.event_type == "search_hit"

/-- `COUNT(*)` of the qualifying events of one department group. -/
def deptCount (events : List Event) (d : PyStr) : Nat :=
  (events.filter (fun e => isTopDeptEvent e && e.dept == d)).length

/-- Keep the first occurrence of each key, in order of first appearance
(the grouping pass of `GROUP BY`). -/
def firstDedupAux {α : Type} [DecidableEq α] (seen : List α) : List α → List α
  | [] => []
  | k :: rest =>
    if k ∈ seen then firstDedupAux seen rest else k :: firstDedupAux (k :: seen) rest

/-- The groups of `GROUP BY dept` over the qualifying events, each with its
`COUNT(*)`, in order of first appearance. -/
def topDeptRows (events : List Event) : List (PyStr × Nat) :=
  (firstDedupAux [] ((events.filter isTopDeptEvent).map (fun e => e.dept))).map
    (fun d => (d, deptCount events d))

/-- The comparison of `ORDER BY c DESC` on the per-group counts. -/
def countDescRel (a b : PyStr × Nat) : Prop := b.2 ≤ a.2

instance : DecidableRel countDescRel := fun a b => Nat.decLe b.2 a.2

instance : IsTotal (PyStr × Nat) countDescRel :=
  ⟨fun a b => Nat.le_total b.2 a.2⟩

instance : IsTrans (PyStr × Nat) countDescRel :=
  ⟨fun _ _ _ h h' => Nat.le_trans h' h⟩

/-- `get_top_depts` of src/bot.py: group the `dept_select`/`search_hit`
events with a nonempty department by department, count, order by count
descending (stably), and keep the first `limit` groups. -/
def get_top_depts (events : List Event) (limit : Nat) : List (PyStr × Nat) :=
  (List.insertionSort countDescRel (topDeptRows events)).take limit

/-- The rows of the `top10_departments_alltime` report: the same query as
`get_top_depts` with `LIMIT 10`. -/
def top10_departments_rows (events : List Event) : List (PyStr × Nat) :=
  (List.insertionSort countDescRel (topDeptRows events)).take 10

/-- `COUNT(*)` of the usage events of one user group. -/
def userCount (events : List Event) (uid : Int) : Nat :=
  (events.filter (fun e => isSearchEvent e && e.user_id == uid)).length

/-- The groups of `GROUP BY user_id` over the usage events with their
counts, in order of first appearance. -/
def topUserRows (events : List Event) : List (Int × Nat) :=
  (firstDedupAux [] ((events.filter isSearchEvent).map (fun e => e.user_id))).map
    (fun u => (u, userCount events u))

/-- The per-user join `SELECT full_name, username, last_seen FROM users
WHERE user_id=?` (`fetchone`). -/
def lookupUser (users : List UserRow) (uid : Int) : Option UserRow :=
  users.find? (fun u => u.user_id == uid)

/-- The comparison of `ORDER BY c DESC` on the per-user counts. -/
def userCountDescRel (a b : Int × Nat) : Prop := b.2 ≤ a.2

instance : DecidableRel userCountDescRel := fun a b => Nat.decLe b.2 a.2

/-- `get_top_users` of src/bot.py: group the usage events by user, count,
order by count descending, keep `limit` rows, and join each user id with
its `users` row. -/
def get_top_users (events : List Event) (users : List UserRow) (limit : Nat) :
    List (Int × Option UserRow × Nat) :=
  ((List.insertionSort userCountDescRel (topUserRows events)).take limit).map
    (fun p => (p.1, lookupUser users p.1, p.2))

/-- The comparison of `ORDER BY last_seen DESC`. -/
def lastSeenDescRel (a b : UserRow) : Prop := b.last_seen ≤ a.last_seen

instance : DecidableRel lastSeenDescRel := fun a b => Nat.decLe b.last_seen a.last_seen

/-- `get_recent_users` of src/bot.py: the `users` rows ordered by
`last_seen` descending, first `limit` rows. -/
def get_recent_users (users : List UserRow) (limit : Nat) : List UserRow :=
  (List.insertionSort lastSeenDescRel users).take limit

/-- `get_total_users`: `SELECT COUNT(*) FROM users`. -/
def get_total_users (users : List UserRow) : Nat := users.length

/-- `get_last_activity_ts`: `SELECT MAX(ts) FROM events`; `none` is the
`NULL` rendered as a placeholder dash. -/
def get_last_activity_ts (events : List Event) : Option Nat :=
  (events.map (fun e => e.ts)).max?

/-- `count_new_users`: users whose `first_seen` lies in the inclusive
window. -/
def count_new_users (users : List UserRow) (start stop : Nat) : Nat :=
  (users.filter (fun u => decide (start ≤ u.first_seen ∧ u.first_seen ≤ stop))).length

/-- `count_active_users`: `COUNT(DISTINCT user_id)` over the inclusive
window. -/
def count_active_users (events : List Event) (start stop : Nat) : Nat :=
  (((events.filter (fun e => decide (start ≤ e.ts ∧ e.ts ≤ stop))).map
    (fun e => e.user_id)).dedup).length

/-- `count_searches`: search-family events inside the inclusive window
built by `_where_ts` (`WHERE ts >= ? AND ts <= ?`). -/
def count_searches (events : List Event) (start stop : Nat) : Nat :=
  (events.filter (fun e => decide (start ≤ e.ts ∧ e.ts ≤ stop) && isSearchEvent e)).length

/-- `count_not_found`: `not_found` events inside the inclusive window. -/
def count_not_found (events : List Event) (start stop : Nat) : Nat :=
  (events.filter (fun e =>
    decide (start ≤ e.ts ∧ e.ts ≤ stop) && (e.event_type == "not_found"))).length

/-- `count_active_users_all`: `COUNT(DISTINCT user_id)` over all events. -/
def count_active_users_all (events : List Event) : Nat :=
  ((events.map (fun e => e.user_id)).dedup).length

/-- `count_searches_all`: all-time search-family event count. -/
def count_searches_all (events : List Event) : Nat :=
  (events.filter isSearchEvent).length

/-- `count_not_found_all`: all-time `not_found` event count. -/
def count_not_found_all (events : List Event) : Nat :=
  (events.filter (fun e => e.event_type == "not_found")).length

/-- `upsert_user` of src/bot.py: if a row with this `user_id` exists,
update its `last_seen`, `username` and `full_name`; otherwise insert a
fresh row with `first_seen = last_seen = t`. -/
def upsert_user (users : List UserRow) (uid : Int) (username full_name : PyStr)
    (t : Nat) : List UserRow :=
  if users.any (fun u => u.user_id == uid) then
    users.map (fun u =>
      if u.user_id == uid then
        { u with last_seen := t, username := username, full_name := full_name }
      else u)
  else users ++ [⟨uid, t, t, username, full_name⟩]

/-- Insertion into a Python dict: overwrite the value when the key is
present, otherwise append the pair. -/
def dictInsert (m : List (PyStr × PyStr)) (k v : PyStr) : List (PyStr × PyStr) :=
  if m.any (fun p => p.1 == k) then
    m.map (fun p => if p.1 == k then (k, v) else p)
  else m ++ [(k, v)]

/-- Python dict lookup. -/
def dictGet? (m : List (PyStr × PyStr)) (k : PyStr) : Option PyStr :=
  (m.find? (fun p => p.1 == k)).map (fun p => p.2)

/-- The row-keeping pass of `load_phonebook`: each cell is `str(...)`
stripped, and rows whose department cell strips to empty are skipped. -/
def keptRows (rows : List (PyStr × PyStr)) : List (PyStr × PyStr) :=
  (rows.map (fun r => (pyStrip r.1, pyStrip r.2))).filter (fun r => !(r.1 == []))

/-- Lexicographic comparison of codepoint strings (Python `str` order),
used by `display_rows.sort(key=lambda x: x[0])`. -/
def leStr : PyStr → PyStr → Bool
  | [], _ => true
  | _ :: _, [] => false
  | a :: s, b :: t => if a < b then true else if b < a then false else leStr s t

/-- The order `display_rows.sort(key=lambda x: x[0])` sorts by. -/
def rowLeRel (a b : PyStr × PyStr) : Prop := leStr a.1 b.1 = true

instance : DecidableRel rowLeRel := fun a b => instDecidableEqBool (leStr a.1 b.1) true

/-- The in-memory state `load_phonebook` produces: the sorted
`display_rows`, the `departments` name list, and the `phonebook` map. -/
structure PhonebookState where
  display_rows : List (PyStr × PyStr)
  departments : List PyStr
  phonebook : List (PyStr × PyStr)
deriving DecidableEq

/-- `load_phonebook` of src/bot.py over the concatenated spreadsheet rows:
append each kept row to `display_rows`, write
`phonebook[normalize_arabic(dept)] = phone` in load order, then sort
`display_rows` by name and project out `departments`. -/
def load_phonebook (rows : List (PyStr × PyStr)) : PhonebookState :=
  let kept := keptRows rows
  let pb := kept.foldl (fun m r => dictInsert m (normalize_arabic r.1) r.2) []
  let display := List.insertionSort rowLeRel kept
  ⟨display, display.map (fun r => r.1), pb⟩

/-- Civil date from a day number (days since 1970-01-01), the standard
era-based algorithm; used only to model `now.replace(day=1, ...)`. -/
def civilFromDays (z0 : Int) : Int × Int × Int :=
  let z := z0 + 719468
  let era := z.fdiv 146097
  let doe := z - era * 146097
  let yoe := (doe - doe.fdiv 1460 + doe.fdiv 36524 - doe.fdiv 146096).fdiv 365
  let doy := doe - (365 * yoe + yoe.fdiv 4 - yoe.fdiv 100)
  let mp := (5 * doy + 2).fdiv 153
  let d := doy - (153 * mp + 2).fdiv 5 + 1
  let m := mp + (if mp < 10 then 3 else -9)
  (yoe + era * 400 + (if m ≤ 2 then 1 else 0), m, d)

/-- `now.replace(hour=0, minute=0, second=0, microsecond=0)` on a local
timestamp in seconds. -/
def midnight (t : Int) : Int := t - t.emod 86400

/-- Python `datetime.weekday()` (Monday = 0) of a local timestamp. -/
def weekdayOf (t : Int) : Int := (t.fdiv 86400 + 3).emod 7

/-- `now.replace(day=1, hour=0, minute=0, second=0, microsecond=0)`. -/
def monthStart (t : Int) : Int := midnight t - ((civilFromDays (t.fdiv 86400)).2.2 - 1) * 86400

/-- The first `period_bounds` of src/bot.py (lines 98-116): optional
bounds, `(None, None)` meaning all-time for any kind outside the six
named ones. -/
def period_bounds_v1 (kind : String) (now : Int) : Option Int × Option Int × String :=
  if kind = "today" then (some (midnight now), some now, "📊 إحصائيات اليوم")
  else if kind = "week" then
    (some (midnight now - weekdayOf now * 86400), some now, "📅 إحصائيات هذا الأسبوع")
  else if kind = "month" then (some (monthStart now), some now, "🗓️ إحصائيات هذا الشهر")
  else if kind = "7" then (some (now - 7 * 86400), some now, "📆 آخر 7 أيام")
  else if kind = "30" then (some (now - 30 * 86400), some now, "📆 آخر 30 يوم")
  else if kind = "90" then (some (now - 90 * 86400), some now, "📆 آخر 90 يوم")
  else (none, none, "♾️ إحصائيات من البداية")

/-- The second `period_bounds` of src/bot.py (lines 419-432), the one in
effect after shadowing: always-bounded, with a bare seven-day fallback. -/
def period_bounds_v2 (kind : String) (now : Int) : Int × Int × String :=
  if kind = "today" then (midnight now, now, "📊 إحصائيات اليوم")
  else if kind = "week" then
    (midnight now - weekdayOf now * 86400, now, "📅 إحصائيات هذا الأسبوع")
  else if kind = "month" then (monthStart now, now, "🗓️ إحصائيات هذا الشهر")
  else (now - 7 * 86400, now, "📆 آخر 7 أيام")

theorem isMark_iff (c : Nat) : isMark c = true ↔ (c = 0x200F ∨ c = 0x200E ∨ c = 0xFEFF) := by
  simp [isMark]

theorem isDiac_iff (c : Nat) : isDiac c = true ↔ ((0x64B ≤ c ∧ c ≤ 0x652) ∨ c = 0x640) := by
  simp [isDiac]

theorem isSpaceChar_iff (c : Nat) : isSpaceChar c = true ↔ (c = 0x20 ∨ (0x9 ≤ c ∧ c ≤ 0xD)) := by
  simp [isSpaceChar]

theorem keepChar_iff (c : Nat) :
    keepChar c = true ↔
    ((0x30 ≤ c ∧ c ≤ 0x39) ∨ (0x41 ≤ c ∧ c ≤ 0x5A) ∨ (0x61 ≤ c ∧ c ≤ 0x7A) ∨ c = 0x5F ∨
     c = 0x1E96 ∨ c = 0x20 ∨ (0x9 ≤ c ∧ c ≤ 0xD) ∨ (0x600 ≤ c ∧ c ≤ 0x6FF)) := by
  simp [keepChar, isWordChar, isSpaceChar, inArabicBlock]
  omega

theorem upperChar_idem (c : Nat) : upperChar (upperChar c) = upperChar c := by
  simp only [upperChar]
  split
  · split <;> omega
  · rfl

theorem foldChar_idem (c : Nat) : foldChar (foldChar c) = foldChar c := by
  by_cases h1 : c = 0x622 ∨ c = 0x623 ∨ c = 0x625
  · have h : foldChar c = 0x627 := by simp [foldChar, h1]
    rw [h]; decide
  · by_cases h2 : c = 0x649
    · have h : foldChar c = 0x64A := by simp [foldChar, h1, h2]
      rw [h]; decide
    · by_cases h3 : c = 0x629
      · have h : foldChar c = 0x647 := by simp [foldChar, h1, h2, h3]
        rw [h]; decide
      · have h : foldChar c = c := by simp [foldChar, h1, h2, h3]
        rw [h]; exact h

theorem keepChar_upperChar (c : Nat) (h : keepChar c = true) :
    keepChar (upperChar c) = true := by
  simp only [upperChar]
  split <;> rw [keepChar_iff] at h ⊢ <;> omega

theorem isSpaceChar_of_upperChar (c : Nat) (h : isSpaceChar (upperChar c) = true) :
    isSpaceChar c = true := by
  simp only [upperChar] at h
  split at h
  · rw [isSpaceChar_iff] at h ⊢; omega
  · exact h

theorem isMark_eq_false_of_keep (c : Nat) (h : keepChar c = true) : isMark c = false := by
  rw [keepChar_iff] at h
  rw [Bool.eq_false_iff, Ne, isMark_iff]
  omega

theorem isDiac_foldChar (c : Nat) (h : isDiac c = false) : isDiac (foldChar c) = false := by
  rw [Bool.eq_false_iff, Ne, isDiac_iff] at h ⊢
  simp only [foldChar]
  split
  · omega
  · split
    · omega
    · split
      · omega
      · exact h

theorem isDiac_upperChar (c : Nat) (h : isDiac c = false) : isDiac (upperChar c) = false := by
  rw [Bool.eq_false_iff, Ne, isDiac_iff] at h ⊢
  simp only [upperChar]
  split <;> omega

theorem foldChar_upperChar (c : Nat) (h : foldChar c = c) :
    foldChar (upperChar c) = upperChar c := by
  simp only [upperChar]
  split
  · simp only [foldChar]
    split
    · omega
    · split
      · omega
      · split
        · omega
        · rfl
  · exact h

/-- Two adjacent characters are not both whitespace. -/
def notTwoSp (a b : Nat) : Prop := ¬(isSpaceChar a = true ∧ isSpaceChar b = true)

/-- No whitespace run of length two anywhere in the string. -/
def noDouble (l : PyStr) : Prop := l.Chain' notTwoSp

/-- The head, when present, is not whitespace. -/
def startsNonSp (l : PyStr) : Prop := ∀ c ∈ l.head?, isSpaceChar c = false

theorem mem_stripLeft {c : Nat} {s : PyStr} (h : c ∈ stripLeft s) : c ∈ s :=
  List.Sublist.mem h (List.dropWhile_sublist _)

theorem mem_pyStrip {c : Nat} {s : PyStr} (h : c ∈ pyStrip s) : c ∈ s := by
  have h1 := mem_stripLeft h
  rw [List.mem_reverse] at h1
  have h2 := mem_stripLeft h1
  rwa [List.mem_reverse] at h2

theorem mem_collapseWsAux {c : Nat} :
    ∀ (l : PyStr) (b : Bool), c ∈ collapseWsAux b l → c = 0x20 ∨ c ∈ l := by
  intro l
  induction l with
  | nil => intro b h; simp [collapseWsAux] at h
  | cons a rest ih =>
    intro b h
    simp only [collapseWsAux] at h
    split at h
    · split at h
      · rcases ih true h with h' | h'
        · exact Or.inl h'
        · exact Or.inr (List.mem_cons_of_mem _ h')
      · rcases List.mem_cons.mp h with h' | h'
        · exact Or.inl h'
        · rcases ih true h' with h'' | h''
          · exact Or.inl h''
          · exact Or.inr (List.mem_cons_of_mem _ h'')
    · rcases List.mem_cons.mp h with h' | h'
      · exact Or.inr (h' ▸ List.mem_cons_self _ _)
      · rcases ih false h' with h'' | h''
        · exact Or.inl h''
        · exact Or.inr (List.mem_cons_of_mem _ h'')

theorem sp_mem_collapseWsAux {c : Nat} :
    ∀ (l : PyStr) (b : Bool), c ∈ collapseWsAux b l → isSpaceChar c = true → c = 0x20 := by
  intro l
  induction l with
  | nil => intro b h; simp [collapseWsAux] at h
  | cons a rest ih =>
    intro b h hsp
    simp only [collapseWsAux] at h
    split at h
    · split at h
      · exact ih true h hsp
      · rcases List.mem_cons.mp h with h' | h'
        · exact h'
        · exact ih true h' hsp
    · rcases List.mem_cons.mp h with h' | h'
      · subst h'
        simp_all
      · exact ih false h' hsp

theorem startsNonSp_collapseWsAux_true : ∀ l : PyStr, startsNonSp (collapseWsAux true l) := by
  intro l
  induction l with
  | nil => intro c hc; simp [collapseWsAux] at hc
  | cons a rest ih =>
    intro c hc
    by_cases ha : isSpaceChar a = true
    · simp only [collapseWsAux, if_pos ha, if_pos rfl] at hc
      exact ih c hc
    · simp only [collapseWsAux, if_neg ha, List.head?_cons, Option.mem_def,
        Option.some.injEq] at hc
      subst hc
      exact Bool.eq_false_iff.mpr ha

theorem noDouble_collapseWsAux : ∀ (l : PyStr) (b : Bool), noDouble (collapseWsAux b l) := by
  intro l
  induction l with
  | nil => intro b; simp [collapseWsAux, noDouble]
  | cons a rest ih =>
    intro b
    by_cases ha : isSpaceChar a = true
    · cases b with
      | true => simpa only [collapseWsAux, if_pos ha, if_pos rfl] using ih true
      | false =>
        simp only [collapseWsAux, if_pos ha]
        rw [if_neg (by simp)]
        rw [noDouble, List.chain'_cons']
        refine ⟨fun y hy => ?_, ih true⟩
        intro hcon
        have := startsNonSp_collapseWsAux_true rest y hy
        rw [this] at hcon
        exact Bool.false_ne_true hcon.2
    · simp only [collapseWsAux, if_neg ha]
      rw [noDouble, List.chain'_cons']
      refine ⟨fun y hy => ?_, ih false⟩
      intro hcon
      exact ha hcon.1

theorem startsNonSp_stripLeft (s : PyStr) : startsNonSp (stripLeft s) := by
  induction s with
  | nil => intro c hc; simp [stripLeft] at hc
  | cons a rest ih =>
    by_cases ha : isSpaceChar a = true
    · intro c hc
      simp only [stripLeft, List.dropWhile_cons, ha, if_pos rfl] at hc
      exact ih c hc
    · intro c hc
      simp only [stripLeft, List.dropWhile_cons] at hc
      rw [if_neg (by simp [ha])] at hc
      simp only [List.head?_cons, Option.mem_def, Option.some.injEq] at hc
      subst hc
      exact Bool.eq_false_iff.mpr ha

theorem startsNonSp_of_prefix {l₁ l₂ : PyStr} (h : l₁ <+: l₂) (hl : startsNonSp l₂) :
    startsNonSp l₁ := by
  rcases h with ⟨r, rfl⟩
  cases l₁ with
  | nil => intro c hc; simp at hc
  | cons a t =>
    intro c hc
    rw [List.head?_cons, Option.mem_def, Option.some.injEq] at hc
    rw [← hc]
    exact hl a (by simp)

theorem noDouble_reverse {l : PyStr} (h : noDouble l) : noDouble l.reverse :=
  (List.chain'_reverse).mpr (h.imp fun _ _ hab hc => hab ⟨hc.2, hc.1⟩)

theorem noDouble_stripLeft {l : PyStr} (h : noDouble l) : noDouble (stripLeft l) :=
  List.Chain'.suffix h (List.dropWhile_suffix _)

theorem noDouble_pyStrip {l : PyStr} (h : noDouble l) : noDouble (pyStrip l) :=
  noDouble_stripLeft (noDouble_reverse (noDouble_stripLeft (noDouble_reverse h)))

theorem startsNonSp_pyStrip (s : PyStr) : startsNonSp (pyStrip s) :=
  startsNonSp_stripLeft _

theorem startsNonSp_pyStrip_reverse (s : PyStr) : startsNonSp (pyStrip s).reverse := by
  have hpre : (stripLeft ((stripLeft s.reverse).reverse)).reverse <+:
      ((stripLeft s.reverse).reverse).reverse :=
    List.reverse_prefix.mpr (List.dropWhile_suffix _)
  rw [List.reverse_reverse] at hpre
  exact startsNonSp_of_prefix hpre (startsNonSp_stripLeft _)

theorem stripLeft_eq_self {l : PyStr} (h : startsNonSp l) : stripLeft l = l := by
  cases l with
  | nil => rfl
  | cons a rest =>
    have ha := h a (by simp)
    simp only [stripLeft, List.dropWhile_cons]
    rw [if_neg (by simp [ha])]

theorem pyStrip_eq_self {l : PyStr} (h : startsNonSp l) (h' : startsNonSp l.reverse) :
    pyStrip l = l := by
  rw [pyStrip, stripLeft_eq_self h', List.reverse_reverse, stripLeft_eq_self h]

theorem collapseWsAux_eq_self :
    ∀ l : PyStr, noDouble l → (∀ c ∈ l, isSpaceChar c = true → c = 0x20) →
    (collapseWsAux false l = l ∧ (startsNonSp l → collapseWsAux true l = l)) := by
  intro l
  induction l with
  | nil => intro _ _; exact ⟨rfl, fun _ => rfl⟩
  | cons a rest ih =>
    intro hnd hsp
    have hndr : noDouble rest := (List.chain'_cons'.mp hnd).2
    have hspr : ∀ c ∈ rest, isSpaceChar c = true → c = 0x20 :=
      fun c hc => hsp c (List.mem_cons_of_mem _ hc)
    obtain ⟨ihf, iht⟩ := ih hndr hspr
    by_cases ha : isSpaceChar a = true
    · have ha20 : a = 0x20 := hsp a (List.mem_cons_self _ _) ha
      have hrs : startsNonSp rest := by
        intro c hc
        have hnt := (List.chain'_cons'.mp hnd).1 c hc
        by_contra hb
        exact hnt ⟨ha, eq_true_of_ne_false hb⟩
      constructor
      · simp only [collapseWsAux, if_pos ha]
        rw [if_neg (by simp), iht hrs, ha20]
      · intro hs
        have := hs a (by simp)
        rw [this] at ha
        exact absurd ha (by simp)
    · constructor
      · simp only [collapseWsAux, if_neg ha]
        rw [ihf]
      · intro _
        simp only [collapseWsAux, if_neg ha]
        rw [ihf]

theorem asciiOrArabic_iff (c : Nat) :
    asciiOrArabic c = true ↔ (c < 0x80 ∨ (0x600 ≤ c ∧ c ≤ 0x6FF)) := by
  simp [asciiOrArabic]

theorem asciiOrArabic_foldChar (c : Nat) (h : asciiOrArabic c = true) :
    asciiOrArabic (foldChar c) = true := by
  rw [asciiOrArabic_iff] at h ⊢
  simp only [foldChar]
  split
  · omega
  · split
    · omega
    · split
      · omega
      · exact h

theorem asciiOrArabic_upperChar (c : Nat) (h : asciiOrArabic c = true) :
    asciiOrArabic (upperChar c) = true := by
  rw [asciiOrArabic_iff] at h ⊢
  simp only [upperChar]
  split <;> omega

theorem asciiOrArabic_ne_expanding (c : Nat) (h : asciiOrArabic c = true) :
    c ≠ 0x1E96 := by
  rw [asciiOrArabic_iff] at h
  omega

theorem pyUpper_eq_of_ne (c : Nat) (h : c ≠ 0x1E96) : pyUpper c = [upperChar c] := by
  simp only [pyUpper]
  rw [if_neg h]

theorem pyUpperStr_eq_map :
    ∀ l : PyStr, (∀ c ∈ l, c ≠ 0x1E96) → pyUpperStr l = l.map upperChar := by
  intro l
  induction l with
  | nil => intro _; rfl
  | cons c rest ih =>
    intro h
    simp only [pyUpperStr, List.map_cons]
    rw [pyUpper_eq_of_ne c (h c (List.mem_cons_self _ _)),
      ih fun x hx => h x (List.mem_cons_of_mem _ hx)]
    rfl

theorem restricted_pipeline {s : PyStr} (hs : ∀ c ∈ s, asciiOrArabic c = true) :
    ∀ d ∈ pyStrip (collapseWs (((strip_diacritics (pyStrip (s.filter
      (fun c => !isMark c)))).map foldChar).map
      (fun c => if keepChar c then c else 0x20))), asciiOrArabic d = true := by
  intro d hd
  have hd1 := mem_pyStrip hd
  rw [collapseWs] at hd1
  rcases mem_collapseWsAux _ false hd1 with rfl | hd2
  · decide
  · rcases List.mem_map.mp hd2 with ⟨e, he, rfl⟩
    rcases List.mem_map.mp he with ⟨f, hf, rfl⟩
    have hfs : f ∈ s := by
      rw [strip_diacritics] at hf
      have hf1 := (List.mem_filter.mp hf).1
      have hf2 := mem_pyStrip hf1
      exact (List.mem_filter.mp hf2).1
    have hfr : asciiOrArabic f = true := hs f hfs
    by_cases hk : keepChar (foldChar f) = true
    · rw [if_pos hk]
      exact asciiOrArabic_foldChar f hfr
    · rw [if_neg hk]
      decide

theorem normalize_arabic_eq_map {s : PyStr} (hs : ∀ c ∈ s, asciiOrArabic c = true) :
    normalize_arabic s =
      (pyStrip (collapseWs (((strip_diacritics (pyStrip (s.filter
        (fun c => !isMark c)))).map foldChar).map
        (fun c => if keepChar c then c else 0x20)))).map upperChar := by
  show pyUpperStr (pyStrip (collapseWs (((strip_diacritics (pyStrip (s.filter
      (fun c => !isMark c)))).map foldChar).map
      (fun c => if keepChar c then c else 0x20)))) = _
  exact pyUpperStr_eq_map _ fun d hd =>
    asciiOrArabic_ne_expanding d (restricted_pipeline hs d hd)

theorem normalize_arabic_chars {s : PyStr} (hs : ∀ c ∈ s, asciiOrArabic c = true) :
    ∀ c ∈ normalize_arabic s,
      keepChar c = true ∧ isDiac c = false ∧ foldChar c = c ∧ upperChar c = c ∧
      (isSpaceChar c = true → c = 0x20) ∧ asciiOrArabic c = true := by
  intro c hc
  rw [normalize_arabic_eq_map hs] at hc
  rcases List.mem_map.mp hc with ⟨d, hd, rfl⟩
  have hdres : asciiOrArabic d = true := restricted_pipeline hs d hd
  have hdcol := mem_pyStrip hd
  rw [collapseWs] at hdcol
  have hsp20 : isSpaceChar d = true → d = 0x20 :=
    fun h => sp_mem_collapseWsAux _ false hdcol h
  have hfacts : keepChar d = true ∧ isDiac d = false ∧ foldChar d = d := by
    rcases mem_collapseWsAux _ false hdcol with rfl | hd4
    · exact ⟨by decide, by decide, by decide⟩
    · rcases List.mem_map.mp hd4 with ⟨e, he, rfl⟩
      rcases List.mem_map.mp he with ⟨f, hf, rfl⟩
      have hdiacf : isDiac f = false := by
        rw [strip_diacritics] at hf
        rcases List.mem_filter.mp hf with ⟨_, hfil⟩
        simpa using hfil
      by_cases hk : keepChar (foldChar f) = true
      · rw [if_pos hk]
        exact ⟨hk, isDiac_foldChar f hdiacf, foldChar_idem f⟩
      · rw [if_neg hk]
        exact ⟨by decide, by decide, by decide⟩
  obtain ⟨hkd, hdd, hfd⟩ := hfacts
  refine ⟨keepChar_upperChar d hkd, isDiac_upperChar d hdd, foldChar_upperChar d hfd,
    upperChar_idem d, ?_, asciiOrArabic_upperChar d hdres⟩
  intro hspu
  have hspd := isSpaceChar_of_upperChar d hspu
  rw [hsp20 hspd]
  decide

theorem noDouble_map_upperChar {t : PyStr} (h : noDouble t) : noDouble (t.map upperChar) := by
  rw [noDouble, List.chain'_map]
  exact h.imp fun a b hab hcon =>
    hab ⟨isSpaceChar_of_upperChar a hcon.1, isSpaceChar_of_upperChar b hcon.2⟩

theorem startsNonSp_map_upperChar {t : PyStr} (h : startsNonSp t) :
    startsNonSp (t.map upperChar) := by
  intro c hc
  rw [List.head?_map] at hc
  cases ht : t.head? with
  | none => rw [ht] at hc; simp at hc
  | some d =>
    rw [ht] at hc
    simp only [Option.map_some', Option.mem_def, Option.some.injEq] at hc
    rw [← hc]
    have hd : isSpaceChar d = false := h d (by rw [ht]; rfl)
    rw [Bool.eq_false_iff] at hd ⊢
    intro hcon
    exact hd (isSpaceChar_of_upperChar d hcon)

theorem noDouble_normalize {s : PyStr} (hs : ∀ c ∈ s, asciiOrArabic c = true) :
    noDouble (normalize_arabic s) := by
  rw [normalize_arabic_eq_map hs]
  simp only [collapseWs]
  exact noDouble_map_upperChar (noDouble_pyStrip (noDouble_collapseWsAux _ false))

theorem startsNonSp_normalize {s : PyStr} (hs : ∀ c ∈ s, asciiOrArabic c = true) :
    startsNonSp (normalize_arabic s) := by
  rw [normalize_arabic_eq_map hs]
  exact startsNonSp_map_upperChar (startsNonSp_pyStrip _)

theorem startsNonSp_normalize_reverse {s : PyStr} (hs : ∀ c ∈ s, asciiOrArabic c = true) :
    startsNonSp (normalize_arabic s).reverse := by
  rw [normalize_arabic_eq_map hs, ← List.map_reverse]
  exact startsNonSp_map_upperChar (startsNonSp_pyStrip_reverse _)

/-- The claim C2 counterexample: over full Unicode the source's
normalization is not idempotent.  U+1E96 (h with line below) is a `\w`
letter, so the first pass keeps it and `str.upper` expands it to `H` plus
the combining macron below U+0331; U+0331 is neither `\w` nor `\s` nor
in the Arabic block, so a second pass turns it into a space and strips
it: `normalize("ẖ")` is `H`+U+0331 but `normalize(normalize("ẖ"))` is
`H`. -/
theorem normalize_arabic_not_idempotent :
    normalize_arabic (normalize_arabic [0x1E96]) ≠ normalize_arabic [0x1E96] := by
  decide

/-- The claim C2 amended theorem: normalization is idempotent on every
string over the program's working repertoire — ASCII and the Arabic
block — which covers every department name and query the bot handles. -/
theorem normalize_arabic_idempotent_restricted (s : PyStr)
    (hs : ∀ c ∈ s, asciiOrArabic c = true) :
    normalize_arabic (normalize_arabic s) = normalize_arabic s := by
  have hch := normalize_arabic_chars hs
  have hout : ∀ c ∈ normalize_arabic s, asciiOrArabic c = true :=
    fun c hc => (hch c hc).2.2.2.2.2
  have hnd : noDouble (normalize_arabic s) := noDouble_normalize hs
  have hs1 : startsNonSp (normalize_arabic s) := startsNonSp_normalize hs
  have hs2 : startsNonSp (normalize_arabic s).reverse := startsNonSp_normalize_reverse hs
  rw [normalize_arabic_eq_map hout]
  set t := normalize_arabic s with ht
  have hfil : t.filter (fun c => !isMark c) = t := by
    rw [List.filter_eq_self]
    intro a ha
    simp only [Bool.not_eq_true']
    exact isMark_eq_false_of_keep a (hch a ha).1
  have hstrip : pyStrip t = t := pyStrip_eq_self hs1 hs2
  have hdiac : strip_diacritics t = t := by
    rw [strip_diacritics, List.filter_eq_self]
    intro a ha
    simp only [Bool.not_eq_true']
    exact (hch a ha).2.1
  have hfold : t.map foldChar = t := by
    have hmc : ∀ a ∈ t, foldChar a = id a := fun a ha => (hch a ha).2.2.1
    rw [List.map_congr_left hmc, List.map_id]
  have hpunct : t.map (fun c => if keepChar c then c else 0x20) = t := by
    have hmc : ∀ a ∈ t, (if keepChar a then a else 0x20) = id a := by
      intro a ha
      simp only [id]
      rw [if_pos (hch a ha).1]
    rw [List.map_congr_left hmc, List.map_id]
  have hcol : collapseWs t = t := by
    rw [collapseWs]
    exact (collapseWsAux_eq_self t hnd fun c hc => (hch c hc).2.2.2.2.1).1
  have hup : t.map upperChar = t := by
    have hmc : ∀ a ∈ t, upperChar a = id a := fun a ha => (hch a ha).2.2.2.1
    rw [List.map_congr_left hmc, List.map_id]
  rw [hfil, hstrip, hdiac, hfold, hpunct, hcol, hstrip, hup]

/-- Witness for the amended C2 theorem at a concrete input over the
program repertoire (an alef-hamza, a space and a Latin letter). -/
theorem normalize_arabic_idempotent_restricted_witness :
    normalize_arabic (normalize_arabic [0x623, 0x20, 0x61]) =
      normalize_arabic [0x623, 0x20, 0x61] :=
  normalize_arabic_idempotent_restricted [0x623, 0x20, 0x61] (by decide)

theorem mem_search_indices (departments : List PyStr) (query : PyStr) (i : Nat) :
    i ∈ search_indices departments query ↔
      normalize_arabic query ≠ [] ∧
      ∃ h : i < departments.length,
        normalize_arabic query <:+: normalize_arabic departments[i] := by
  simp only [search_indices]
  by_cases hq : normalize_arabic query = []
  · rw [if_pos hq]
    simp only [List.not_mem_nil, false_iff]
    intro hcon
    exact hcon.1 hq
  · rw [if_neg hq]
    simp only [List.mem_filter, List.mem_range, decide_eq_true_eq]
    constructor
    · rintro ⟨hi, hp⟩
      exact ⟨hq, hi, by rwa [List.getD_eq_getElem _ _ hi] at hp⟩
    · rintro ⟨-, hi, hp⟩
      exact ⟨hi, by rwa [List.getD_eq_getElem _ _ hi]⟩

theorem search_indices_sorted (departments : List PyStr) (query : PyStr) :
    List.Pairwise (fun a b => a < b) (search_indices departments query) := by
  simp only [search_indices]
  by_cases hq : normalize_arabic query = []
  · rw [if_pos hq]
    exact List.Pairwise.nil
  · rw [if_neg hq]
    exact List.Pairwise.sublist (List.filter_sublist _) (List.pairwise_lt_range _)

theorem search_indices_nil_of_empty (departments : List PyStr) (query : PyStr)
    (h : normalize_arabic query = []) : search_indices departments query = [] := by
  simp [search_indices, h]

/-- The claim C1 theorem: `search_indices` returns exactly the indices whose
normalized department name contains the normalized query as a substring, in
ascending (original) order without repetition, and returns nothing when the
normalized query is empty. -/
theorem search_indices_spec (departments : List PyStr) (query : PyStr) :
    (∀ i, i ∈ search_indices departments query ↔
        normalize_arabic query ≠ [] ∧
        ∃ h : i < departments.length,
          normalize_arabic query <:+: normalize_arabic departments[i]) ∧
    List.Pairwise (fun a b => a < b) (search_indices departments query) ∧
    (normalize_arabic query = [] → search_indices departments query = []) :=
  ⟨fun i => mem_search_indices departments query i,
   search_indices_sorted departments query,
   search_indices_nil_of_empty departments query⟩

/-- Witness for C1 at a concrete input: a whitespace-only query normalizes
to the empty string, so the search returns no indices. -/
theorem search_indices_spec_witness : search_indices [[0x61]] [0x20] = [] :=
  (search_indices_spec [[0x61]] [0x20]).2.2 (by decide)

/-- The claim C3 counterexample: for the department list `["AB"]` and the
query `"ABC"`, the normalized department name is a substring of the
normalized query, yet the department is not returned — the code's
containment test is not bidirectional. -/
theorem search_indices_not_bidirectional :
    (normalize_arabic [0x41, 0x42] <:+: normalize_arabic [0x41, 0x42, 0x43]) ∧
    search_indices [[0x41, 0x42]] [0x41, 0x42, 0x43] = [] := by
  constructor
  · decide
  · decide

/-- The claim C3 amended theorem: containment matching is one-directional —
a department is included exactly when the normalized query is nonempty and
is a substring of the normalized department name; reverse containment and
plural stripping play no role. -/
theorem search_indices_contains (departments : List PyStr) (query : PyStr) (i : Nat)
    (h : i < departments.length) :
    i ∈ search_indices departments query ↔
      normalize_arabic query ≠ [] ∧
      normalize_arabic query <:+: normalize_arabic departments[i] := by
  rw [mem_search_indices]
  constructor
  · rintro ⟨hq, h', hp⟩
    exact ⟨hq, hp⟩
  · rintro ⟨hq, hp⟩
    exact ⟨hq, h, hp⟩

/-- Witness for the amended C3 theorem at a concrete input. -/
theorem search_indices_contains_witness : 0 ∈ search_indices [[0x61]] [0x61] :=
  (search_indices_contains [[0x61]] [0x61] 0 (by decide)).mpr ⟨by decide, by decide⟩

theorem mem_firstDedupAux {α : Type} [DecidableEq α] {a : α} :
    ∀ {l seen : List α}, a ∈ firstDedupAux seen l → a ∈ l := by
  intro l
  induction l with
  | nil => intro seen h; simp [firstDedupAux] at h
  | cons k rest ih =>
    intro seen h
    simp only [firstDedupAux] at h
    split at h
    · exact List.mem_cons_of_mem _ (ih h)
    · rcases List.mem_cons.mp h with h' | h'
      · exact h' ▸ List.mem_cons_self _ _
      · exact List.mem_cons_of_mem _ (ih h')

theorem mem_get_top_depts {events : List Event} {n : Nat} {p : PyStr × Nat}
    (hp : p ∈ get_top_depts events n) :
    (∃ e ∈ events, isTopDeptEvent e = true ∧ e.dept = p.1) ∧
    p.2 = deptCount events p.1 := by
  rw [get_top_depts] at hp
  have hp1 : p ∈ List.insertionSort countDescRel (topDeptRows events) :=
    List.Sublist.mem hp (List.take_sublist _ _)
  rw [List.mem_insertionSort] at hp1
  rw [topDeptRows] at hp1
  rcases List.mem_map.mp hp1 with ⟨d, hd, rfl⟩
  refine ⟨?_, rfl⟩
  rcases List.mem_map.mp (mem_firstDedupAux hd) with ⟨e, he, rfl⟩
  rcases List.mem_filter.mp he with ⟨hee, hq⟩
  exact ⟨e, hee, hq, rfl⟩

theorem get_top_depts_sorted (events : List Event) (n : Nat) :
    List.Pairwise (fun a b : PyStr × Nat => b.2 ≤ a.2) (get_top_depts events n) := by
  have hs := List.sorted_insertionSort countDescRel (topDeptRows events)
  exact List.Pairwise.sublist (List.take_sublist _ _) hs

theorem get_top_depts_length (events : List Event) (n : Nat) :
    (get_top_depts events n).length = min n (topDeptRows events).length := by
  rw [get_top_depts, List.length_take, List.length_insertionSort]

/-- The claim C4 theorem: `get_top_depts` counts exactly the
`dept_select`/`search_hit` events of each department (so no other event
kind contributes), every returned department stems from such an event, the
rows are ordered by descending count, the result is the first `n` of the
groups, and the admin-panel report uses the same query with `n = 10`. -/
theorem get_top_depts_spec (events : List Event) (n : Nat) :
    (∀ p ∈ get_top_depts events n,
        (∃ e ∈ events, isTopDeptEvent e = true ∧ e.dept = p.1) ∧
        p.2 = deptCount events p.1) ∧
    List.Pairwise (fun a b : PyStr × Nat => b.2 ≤ a.2) (get_top_depts events n) ∧
    (get_top_depts events n).length = min n (topDeptRows events).length ∧
    top10_departments_rows events = get_top_depts events 10 :=
  ⟨fun _ hp => mem_get_top_depts hp, get_top_depts_sorted events n,
   get_top_depts_length events n, rfl⟩

/-- Witness for C4 at a concrete input: the single `search_hit` event for
department `"A"` yields the group row with count 1. -/
theorem get_top_depts_spec_witness :
    (∃ e ∈ ([⟨1, 1, "search_hit", [0x41], []⟩] : List Event),
        isTopDeptEvent e = true ∧ e.dept = ([0x41] : PyStr)) ∧
    (1 : Nat) = deptCount ([⟨1, 1, "search_hit", [0x41], []⟩] : List Event) [0x41] :=
  (get_top_depts_spec ([⟨1, 1, "search_hit", [0x41], []⟩] : List Event) 3).1
    ([0x41], 1) (by decide)

/-- The claim C7 theorem: appending one qualifying event for department `D`
raises `D`'s group count by exactly one, lowers no other department's
count, and the counts carried by the top-departments rows are exactly these
group counts. -/
theorem deptCount_append_qualifying (events : List Event) (e : Event) (D : PyStr)
    (hq : isTopDeptEvent e = true) (hd : e.dept = D) :
    deptCount (events ++ [e]) D = deptCount events D + 1 ∧
    (∀ d : PyStr, deptCount events d ≤ deptCount (events ++ [e]) d) ∧
    (∀ n : Nat, ∀ p ∈ get_top_depts (events ++ [e]) n,
        p.2 = deptCount (events ++ [e]) p.1) := by
  refine ⟨?_, ?_, fun n p hp => (mem_get_top_depts hp).2⟩
  · rw [deptCount, deptCount, List.filter_append, List.length_append]
    have : List.filter (fun x => isTopDeptEvent x && x.dept == D) [e] = [e] := by
      simp [hq, hd]
    rw [this]
    rfl
  · intro d
    rw [deptCount, deptCount, List.filter_append, List.length_append]
    exact Nat.le_add_right _ _

/-- Witness for C7 at a concrete input: appending a `dept_select` event for
department `"A"` to the empty log gives it count 1. -/
theorem deptCount_append_qualifying_witness :
    deptCount ([] ++ [⟨5, 1, "dept_select", [0x41], []⟩]) [0x41] =
      deptCount [] [0x41] + 1 :=
  (deptCount_append_qualifying [] ⟨5, 1, "dept_select", [0x41], []⟩ [0x41]
    (by decide) rfl).1

/-- The claim C5 theorem: the `_where_ts` window used by `count_searches`
is inclusive — an event strictly outside `[start, stop]` is never counted,
and a qualifying event exactly on either boundary is counted. -/
theorem count_searches_window (events : List Event) (e : Event) (s t : Nat) :
    ((e.ts < s ∨ t < e.ts) →
      count_searches (events ++ [e]) s t = count_searches events s t) ∧
    ((e.ts = s ∨ e.ts = t) → s ≤ t → isSearchEvent e = true →
      count_searches (events ++ [e]) s t = count_searches events s t + 1) := by
  constructor
  · intro hout
    rw [count_searches, count_searches, List.filter_append]
    have hdec : decide (s ≤ e.ts ∧ e.ts ≤ t) = false := by
      rw [decide_eq_false_iff_not]
      omega
    have hp : (decide (s ≤ e.ts ∧ e.ts ≤ t) && isSearchEvent e) = false := by
      rw [hdec, Bool.false_and]
    have hnil : List.filter (fun x => decide (s ≤ x.ts ∧ x.ts ≤ t) && isSearchEvent x)
        [e] = [] := by
      simp only [List.filter_cons, List.filter_nil, hp]
      rfl
    rw [hnil, List.append_nil]
  · intro hb hst hq
    rw [count_searches, count_searches, List.filter_append]
    have hdec : decide (s ≤ e.ts ∧ e.ts ≤ t) = true := by
      rw [decide_eq_true_eq]
      omega
    have hp : (decide (s ≤ e.ts ∧ e.ts ≤ t) && isSearchEvent e) = true := by
      rw [hdec, hq]
      rfl
    have hone : List.filter (fun x => decide (s ≤ x.ts ∧ x.ts ≤ t) && isSearchEvent x)
        [e] = [e] := by
      simp only [List.filter_cons, List.filter_nil, hp]
      rfl
    rw [hone, List.length_append]
    rfl

/-- Witness for C5 at a concrete input: a `search_text` event exactly at
the window start is counted. -/
theorem count_searches_window_witness :
    count_searches ([] ++ [⟨3, 1, "search_text", [], []⟩]) 3 7 =
      count_searches [] 3 7 + 1 :=
  (count_searches_window [] ⟨3, 1, "search_text", [], []⟩ 3 7).2
    (Or.inl rfl) (by decide) (by decide)

/-- The claim C6 theorem: every aggregator, applied to the empty event log
and the empty user table, returns an empty sequence, zero, or the `NULL`
placeholder — never an error (all these functions are total). -/
theorem aggregators_empty :
    get_total_users [] = 0 ∧
    get_last_activity_ts [] = none ∧
    (∀ n, get_top_depts [] n = []) ∧
    top10_departments_rows [] = [] ∧
    (∀ n, get_top_users [] [] n = []) ∧
    (∀ n, get_recent_users [] n = []) ∧
    (∀ s t, count_new_users [] s t = 0) ∧
    (∀ s t, count_active_users [] s t = 0) ∧
    (∀ s t, count_searches [] s t = 0) ∧
    (∀ s t, count_not_found [] s t = 0) ∧
    count_active_users_all [] = 0 ∧
    count_searches_all [] = 0 ∧
    count_not_found_all [] = 0 := by
  refine ⟨rfl, rfl, fun n => ?_, ?_, fun n => ?_, fun n => ?_, fun s t => rfl,
    fun s t => rfl, fun s t => rfl, fun s t => rfl, rfl, rfl, rfl⟩
  · simp [get_top_depts, topDeptRows, firstDedupAux]
  · simp [top10_departments_rows, topDeptRows, firstDedupAux]
  · simp [get_top_users, topUserRows, firstDedupAux]
  · simp [get_recent_users]

/-- The claim C8 theorem: upserting a previously unseen user id twice
leaves exactly one matching `users` row; its `first_seen` is the first
call's timestamp and its `last_seen` (and name fields) come from the
second call. -/
theorem upsert_user_twice (users : List UserRow) (uid : Int)
    (un1 fn1 un2 fn2 : PyStr) (t1 t2 : Nat)
    (hfresh : ∀ u ∈ users, u.user_id ≠ uid) :
    (upsert_user (upsert_user users uid un1 fn1 t1) uid un2 fn2 t2).filter
      (fun u => u.user_id == uid) = [⟨uid, t1, t2, un2, fn2⟩] := by
  have hany1 : (users.any fun u => u.user_id == uid) = false := by
    rw [List.any_eq_false]
    intro u hu
    simp [hfresh u hu]
  have hstep1 : upsert_user users uid un1 fn1 t1 =
      users ++ [⟨uid, t1, t1, un1, fn1⟩] := by
    rw [upsert_user, if_neg (by rw [hany1]; exact Bool.false_ne_true)]
  rw [hstep1]
  have hany2 : ((users ++ [(⟨uid, t1, t1, un1, fn1⟩ : UserRow)]).any
      fun u => u.user_id == uid) = true := by
    rw [List.any_eq_true]
    exact ⟨⟨uid, t1, t1, un1, fn1⟩, by simp, by simp⟩
  rw [upsert_user, if_pos hany2, List.map_append, List.filter_append]
  have hmap1 : users.map (fun u => if u.user_id == uid then
      ({ u with last_seen := t2, username := un2, full_name := fn2 } : UserRow)
      else u) = users := by
    have hmc : ∀ u ∈ users, (if u.user_id == uid then
        ({ u with last_seen := t2, username := un2, full_name := fn2 } : UserRow)
        else u) = id u := by
      intro u hu
      simp only [id]
      rw [if_neg]
      rw [Bool.not_eq_true, Bool.eq_false_iff]
      intro hb
      exact hfresh u hu (beq_iff_eq.mp hb)
    rw [List.map_congr_left hmc, List.map_id]
  rw [hmap1]
  have hflt1 : users.filter (fun u => u.user_id == uid) = [] := by
    rw [List.filter_eq_nil_iff]
    intro u hu
    simp [hfresh u hu]
  rw [hflt1, List.nil_append]
  simp

/-- Witness for C8 at a concrete input. -/
theorem upsert_user_twice_witness :
    (upsert_user (upsert_user [] 7 [] [] 10) 7 [0x61] [] 20).filter
      (fun u => u.user_id == 7) = [⟨7, 10, 20, [0x61], []⟩] :=
  upsert_user_twice [] 7 [] [] [0x61] [] 10 20 (by simp)

theorem find?_update_same (k v : PyStr) :
    ∀ m : List (PyStr × PyStr), (m.any fun p => p.1 == k) = true →
    List.find? (fun p => p.1 == k)
      (m.map fun p => if p.1 == k then (k, v) else p) = some (k, v) := by
  intro m
  induction m with
  | nil => intro h; simp at h
  | cons a rest ih =>
    intro h
    rw [List.map_cons]
    by_cases ha : (a.1 == k) = true
    · rw [if_pos ha]
      exact List.find?_cons_of_pos _ (by simp)
    · have ha' : (a.1 == k) = false := Bool.eq_false_iff.mpr ha
      rw [if_neg ha,
        @List.find?_cons_of_neg _ (fun p => p.1 == k) a
          (List.map (fun p => if p.1 == k then (k, v) else p) rest) ha]
      rw [List.any_cons, ha', Bool.false_or] at h
      exact ih h

theorem find?_update_other (k v k' : PyStr) (hk : k' ≠ k) :
    ∀ m : List (PyStr × PyStr),
    List.find? (fun p => p.1 == k')
      (m.map fun p => if p.1 == k then (k, v) else p) =
    List.find? (fun p => p.1 == k') m := by
  intro m
  induction m with
  | nil => rfl
  | cons a rest ih =>
    rw [List.map_cons]
    by_cases ha : (a.1 == k) = true
    · have ha' : a.1 = k := beq_iff_eq.mp ha
      have hh : ¬(((k, v).1 == k') = true) := by
        intro hb
        exact hk (beq_iff_eq.mp hb).symm
      have hh2 : ¬((a.1 == k') = true) := by
        intro hb
        refine hk ?_
        rw [← beq_iff_eq.mp hb, ha']
      rw [if_pos ha,
        @List.find?_cons_of_neg _ (fun p => p.1 == k') (k, v)
          (List.map (fun p => if p.1 == k then (k, v) else p) rest) hh,
        @List.find?_cons_of_neg _ (fun p => p.1 == k') a rest hh2]
      exact ih
    · rw [if_neg ha]
      by_cases hpa : (a.1 == k') = true
      · rw [@List.find?_cons_of_pos _ (fun p => p.1 == k') a
          (List.map (fun p => if p.1 == k then (k, v) else p) rest) hpa,
          @List.find?_cons_of_pos _ (fun p => p.1 == k') a rest hpa]
      · rw [@List.find?_cons_of_neg _ (fun p => p.1 == k') a
          (List.map (fun p => if p.1 == k then (k, v) else p) rest) hpa,
          @List.find?_cons_of_neg _ (fun p => p.1 == k') a rest hpa]
        exact ih

theorem dictGet?_dictInsert (m : List (PyStr × PyStr)) (k v k' : PyStr) :
    dictGet? (dictInsert m k v) k' =
      if k' = k then some v else dictGet? m k' := by
  by_cases hk : k' = k
  · subst hk
    rw [if_pos rfl, dictInsert]
    by_cases hany : (m.any fun p => p.1 == k') = true
    · rw [if_pos hany, dictGet?, find?_update_same _ _ _ hany]
      rfl
    · rw [if_neg hany, dictGet?, List.find?_append]
      have hany' : (m.any fun p => p.1 == k') = false :=
        Bool.eq_false_iff.mpr hany
      have hnone : List.find? (fun p => p.1 == k') m = none := by
        rw [List.find?_eq_none]
        intro x hx
        exact List.any_eq_false.mp hany' x hx
      rw [hnone]
      simp [List.find?_singleton]
  · rw [if_neg hk, dictInsert]
    by_cases hany : (m.any fun p => p.1 == k) = true
    · rw [if_pos hany, dictGet?, dictGet?, find?_update_other _ _ _ hk]
    · rw [if_neg hany, dictGet?, dictGet?, List.find?_append]
      have h2 : List.find? (fun p => p.1 == k') [(k, v)] = none := by
        rw [List.find?_singleton, if_neg]
        intro hb
        exact hk (beq_iff_eq.mp hb).symm
      rw [h2]
      simp

theorem dictGet?_fold_no_key (k : PyStr) :
    ∀ (rows : List (PyStr × PyStr)) (m0 : List (PyStr × PyStr)),
    (∀ r ∈ rows, normalize_arabic r.1 ≠ k) →
    dictGet? (rows.foldl (fun m r => dictInsert m (normalize_arabic r.1) r.2) m0) k =
    dictGet? m0 k := by
  intro rows
  induction rows with
  | nil => intro m0 _; rfl
  | cons r rest ih =>
    intro m0 hno
    rw [List.foldl_cons, ih _ fun x hx => hno x (List.mem_cons_of_mem _ hx)]
    rw [dictGet?_dictInsert, if_neg]
    exact fun hh => hno r (List.mem_cons_self _ _) hh.symm

theorem keptRows_append (xs ys : List (PyStr × PyStr)) :
    keptRows (xs ++ ys) = keptRows xs ++ keptRows ys := by
  rw [keptRows, keptRows, keptRows, List.map_append, List.filter_append]

theorem keptRows_single {r : PyStr × PyStr} (h : pyStrip r.1 ≠ []) :
    keptRows [r] = [(pyStrip r.1, pyStrip r.2)] := by
  simp [keptRows, h]

/-- The claim C9 theorem: when a later row `r2` shares its normalized key
with an earlier row `r1` (and no row after `r2` carries that key), the
loaded `phonebook` map resolves the key to `r2`'s phone — last-loaded wins —
while the ordered `departments` list still contains both display names. -/
theorem load_phonebook_collision (pre mid post : List (PyStr × PyStr))
    (r1 r2 : PyStr × PyStr)
    (h1 : pyStrip r1.1 ≠ []) (h2 : pyStrip r2.1 ≠ [])
    (_hk : normalize_arabic (pyStrip r1.1) = normalize_arabic (pyStrip r2.1))
    (hpost : ∀ r ∈ post, pyStrip r.1 ≠ [] →
      normalize_arabic (pyStrip r.1) ≠ normalize_arabic (pyStrip r2.1)) :
    dictGet? (load_phonebook (pre ++ [r1] ++ mid ++ [r2] ++ post)).phonebook
        (normalize_arabic (pyStrip r2.1)) = some (pyStrip r2.2) ∧
    pyStrip r1.1 ∈ (load_phonebook (pre ++ [r1] ++ mid ++ [r2] ++ post)).departments ∧
    pyStrip r2.1 ∈ (load_phonebook (pre ++ [r1] ++ mid ++ [r2] ++ post)).departments := by
  have hkept : keptRows (pre ++ [r1] ++ mid ++ [r2] ++ post) =
      keptRows pre ++ [(pyStrip r1.1, pyStrip r1.2)] ++ keptRows mid ++
        [(pyStrip r2.1, pyStrip r2.2)] ++ keptRows post := by
    rw [keptRows_append, keptRows_append, keptRows_append, keptRows_append,
      keptRows_single h1, keptRows_single h2]
  have hnokey : ∀ r ∈ keptRows post,
      normalize_arabic r.1 ≠ normalize_arabic (pyStrip r2.1) := by
    intro r hr
    rw [keptRows] at hr
    rcases List.mem_filter.mp hr with ⟨hmem, hcond⟩
    rcases List.mem_map.mp hmem with ⟨q, hq, rfl⟩
    refine hpost q hq ?_
    intro hnil
    rw [hnil] at hcond
    simp at hcond
  refine ⟨?_, ?_, ?_⟩
  · show dictGet? ((keptRows (pre ++ [r1] ++ mid ++ [r2] ++ post)).foldl
        (fun m r => dictInsert m (normalize_arabic r.1) r.2) [])
        (normalize_arabic (pyStrip r2.1)) = some (pyStrip r2.2)
    rw [hkept, List.foldl_append, List.foldl_append, List.foldl_append,
      List.foldl_append]
    rw [dictGet?_fold_no_key _ (keptRows post) _ hnokey]
    rw [List.foldl_cons, List.foldl_nil, dictGet?_dictInsert, if_pos rfl]
  · show pyStrip r1.1 ∈ (List.insertionSort rowLeRel
      (keptRows (pre ++ [r1] ++ mid ++ [r2] ++ post))).map (fun r => r.1)
    refine List.mem_map.mpr ⟨(pyStrip r1.1, pyStrip r1.2), ?_, rfl⟩
    rw [List.mem_insertionSort, hkept]
    simp
  · show pyStrip r2.1 ∈ (List.insertionSort rowLeRel
      (keptRows (pre ++ [r1] ++ mid ++ [r2] ++ post))).map (fun r => r.1)
    refine List.mem_map.mpr ⟨(pyStrip r2.1, pyStrip r2.2), ?_, rfl⟩
    rw [List.mem_insertionSort, hkept]
    simp

/-- Witness for C9 at a concrete input: the rows `("a", "1")` and
`("A", "2")` share the normalized key `"A"`; the phonebook keeps phone
`"2"`, the department list keeps both names. -/
theorem load_phonebook_collision_witness :
    dictGet? (load_phonebook ([] ++ [([0x61], [0x31])] ++ [] ++
        [([0x41], [0x32])] ++ [])).phonebook
      (normalize_arabic (pyStrip [0x41])) = some (pyStrip [0x32]) ∧
    pyStrip [0x61] ∈ (load_phonebook ([] ++ [([0x61], [0x31])] ++ [] ++
        [([0x41], [0x32])] ++ [])).departments ∧
    pyStrip [0x41] ∈ (load_phonebook ([] ++ [([0x61], [0x31])] ++ [] ++
        [([0x41], [0x32])] ++ [])).departments :=
  load_phonebook_collision [] [] [] ([0x61], [0x31]) ([0x41], [0x32])
    (by decide) (by decide) (by decide) (by simp)

/-- The claim C10 theorem: the module's two `period_bounds` definitions
agree (up to the `Optional` wrapper) on the kinds `today`, `week` and
`month`; on every other kind the effective second definition falls back to
the bounded seven-day window, while the first definition returned the
kind-specific windows for `7`, `30`, `90` and the all-time `(None, None)`
bounds otherwise. -/
theorem period_bounds_shadowed (kind : String) (now : Int) :
    ((kind = "today" ∨ kind = "week" ∨ kind = "month") →
      period_bounds_v1 kind now =
        (some (period_bounds_v2 kind now).1, some (period_bounds_v2 kind now).2.1,
         (period_bounds_v2 kind now).2.2)) ∧
    (kind ≠ "today" → kind ≠ "week" → kind ≠ "month" →
      (period_bounds_v2 kind now = (now - 7 * 86400, now, "📆 آخر 7 أيام") ∧
       (kind = "7" → period_bounds_v1 kind now =
         (some (now - 7 * 86400), some now, "📆 آخر 7 أيام")) ∧
       (kind = "30" → period_bounds_v1 kind now =
         (some (now - 30 * 86400), some now, "📆 آخر 30 يوم")) ∧
       (kind = "90" → period_bounds_v1 kind now =
         (some (now - 90 * 86400), some now, "📆 آخر 90 يوم")) ∧
       (kind ≠ "7" → kind ≠ "30" → kind ≠ "90" →
         period_bounds_v1 kind now = (none, none, "♾️ إحصائيات من البداية")))) := by
  constructor
  · rintro (h | h | h) <;> subst h <;> rfl
  · intro h1 h2 h3
    refine ⟨?_, ?_, ?_, ?_, ?_⟩
    · rw [period_bounds_v2, if_neg h1, if_neg h2, if_neg h3]
    · intro h
      subst h
      rfl
    · intro h
      subst h
      rfl
    · intro h
      subst h
      rfl
    · intro h7 h30 h90
      rw [period_bounds_v1, if_neg h1, if_neg h2, if_neg h3, if_neg h7,
        if_neg h30, if_neg h90]

/-- Witness for C10 at a concrete input: for the kind `"30"` the second
definition returns the seven-day window while the first returned the
thirty-day window. -/
theorem period_bounds_shadowed_witness :
    period_bounds_v2 "30" 1000 = (1000 - 7 * 86400, 1000, "📆 آخر 7 أيام") ∧
    period_bounds_v1 "30" 1000 =
      (some (1000 - 30 * 86400), some 1000, "📆 آخر 30 يوم") :=
  ⟨((period_bounds_shadowed "30" 1000).2 (by decide) (by decide) (by decide)).1,
   ((period_bounds_shadowed "30" 1000).2 (by decide) (by decide)
     (by decide)).2.2.1 rfl⟩
